import Mathlib

/-!
# Utility AI evaluator (`aitoolkit/utility.hpp`)

A shallow embedding of `aitoolkit::utility::action`, `action_list` and
`evaluator::run`, followed by facts about which action `run` applies.

Modelling conventions.

* `float` is modelled by what the comparison operators can observe of a
  binary32 value: NaN, the two infinities, or the real number a finite float
  denotes (a rational; `+0` and `-0` both denote `0`).  Every binary32 value
  falls in exactly one of these classes, so a statement proved for all model
  values holds for all floats; concrete inputs only use values that are
  exactly representable in binary32.
* A virtual `score(const T&) const` is a function `T → float`; a virtual
  `apply(T&) const` is a function `T → T` from the blackboard before the call
  to the blackboard after it.
* Where the question is whether an outcome depends on anything but the
  blackboard, the virtual functions are taken in full generality (namespace
  `stateful`): they may read and write other program state `W` (globals,
  `mutable` members, a random generator), which is passed along explicitly.
* `std::vector<action_ptr<T>>` is a `List`; a raw pointer obtained with
  `.get()` from an element of the vector is the position of that element
  together with the object it points to.
* The `int` fields of the usage example's blackboard are 32-bit: an integer
  between `INT_MIN` and `INT_MAX`.  Signed overflow, which the language leaves
  undefined, is given the two's complement wrap-around of the compiled code.
-/

set_option autoImplicit false

namespace aitoolkit.utility

/-! ## Scores: the `float` type and its `>` -/

/-- Values of the C++ type `float`, up to what `>` can distinguish. -/
inductive float where
  | nan : float
  | ninf : float
  | fin (q : ℚ) : float
  | pinf : float
  deriving DecidableEq

namespace float

/-- The test `std::isnan`. -/
def isnan : float → Bool
  | nan => true
  | _ => false

/-- The operator `a > b` on `float`: false as soon as one side is NaN,
otherwise the order of the extended real line. -/
def gt : float → float → Bool
  | nan, _ => false
  | _, nan => false
  | ninf, _ => false
  | fin _, ninf => true
  | fin a, fin b => decide (b < a)
  | fin _, pinf => false
  | pinf, pinf => false
  | pinf, _ => true

end float

/-- The constant `std::numeric_limits<float>::min()`: the smallest positive
normal binary32 value, `2^-126`. -/
def numeric_limits_float_min : float := float.fin (mkRat 1 (2 ^ 126))

/-- The constant `std::numeric_limits<float>::lowest()`: the most negative
finite binary32 value, `-(2 - 2^-23) * 2^127 = -(2^24 - 1) * 2^104`. -/
def numeric_limits_float_lowest : float :=
  float.fin (Rat.ofInt (-((2 ^ 24 - 1) * 2 ^ 104)))

/-! ## Actions and rosters -/

/-- The abstract class `action<T>`: its two pure virtual member functions. -/
structure action (T : Type) where
  score : T → float
  apply : T → T

/-- The alias `action_ptr<T>` (`std::unique_ptr<action<T>>`): the owned action. -/
abbrev action_ptr (T : Type) : Type := action T

/-- The function `action_list`: starts from an empty vector and `push_back`s
each argument in turn, left to right. -/
def action_list {T : Type} (actions : List (action T)) : List (action_ptr T) :=
  actions.foldl (fun actions_list a => actions_list ++ [a]) []

/-- A raw `action<T>*` pointing into `m_actions`: the position of the element
it was taken from, and the action found there. -/
structure action_raw_ptr (T : Type) where
  index : Nat
  target : action T

/-- One virtual call made by `run`, with the blackboard it was made on. -/
inductive call (T : Type) where
  | score (index : Nat) (blackboard : T) : call T
  | apply (index : Nat) (blackboard : T) : call T
  deriving DecidableEq

namespace call

/-- Whether the call is a call of `score`. -/
def is_score {T : Type} : call T → Bool
  | score _ _ => true
  | apply _ _ => false

/-- Whether the call is a call of `apply`. -/
def is_apply {T : Type} : call T → Bool
  | score _ _ => false
  | apply _ _ => true

end call

/-- The class `evaluator<T>`: its only data member. -/
structure evaluator (T : Type) where
  m_actions : List (action_ptr T)

/-- The locals of `evaluator::run` while it scans the roster, and the calls
of `score` made so far. -/
structure run_locals (T : Type) where
  best_score : float
  best_action : action_raw_ptr T
  calls : List (call T)

/-- What a call of `run` leaves behind: the evaluator (`run` is `const`), the
blackboard, and the virtual calls it made, in order. -/
structure run_result (T : Type) where
  self : evaluator T
  blackboard : T
  calls : List (call T)

namespace evaluator

/-- One iteration of the `for` loop of `run`, on the action at position `i`. -/
def run_step {T : Type} (blackboard : T) (i : Nat) (act : action_ptr T)
    (st : run_locals T) : run_locals T :=
  let score := act.score blackboard
  if float.gt score st.best_score then
    { best_score := score
      best_action := { index := i, target := act }
      calls := st.calls ++ [call.score i blackboard] }
  else
    { st with calls := st.calls ++ [call.score i blackboard] }

/-- The `for (auto& action : m_actions)` loop of `run`, over the actions still
to visit, the first of them at position `i`. -/
def run_loop {T : Type} (blackboard : T) :
    List (action_ptr T) → Nat → run_locals T → run_locals T
  | [], _, st => st
  | act :: rest, i, st => run_loop blackboard rest (i + 1) (run_step blackboard i act st)

/-- The member function `evaluator::run`. -/
def run {T : Type} (ev : evaluator T) (blackboard : T) : run_result T :=
  match ev.m_actions with
  | [] => { self := ev, blackboard := blackboard, calls := [] }
  | front :: _ =>
    let init : run_locals T :=
      { best_score := numeric_limits_float_min
        best_action := { index := 0, target := front }
        calls := [] }
    let st := run_loop blackboard ev.m_actions 0 init
    { self := ev
      blackboard := st.best_action.target.apply blackboard
      calls := st.calls ++ [call.apply st.best_action.index blackboard] }

/-- The locals of `run` as its two `auto` declarations leave them, before the
loop: `best_score` is `std::numeric_limits<float>::min()` and `best_action`
is `m_actions.front().get()`. -/
def run_init {T : Type} (front : action_ptr T) : run_locals T :=
  { best_score := numeric_limits_float_min
    best_action := { index := 0, target := front }
    calls := [] }

end evaluator

/-! ## The rosters of the header's usage example and of the test file -/

/-! ## Actions with access to other program state -/

namespace stateful

/-- The abstract class `action<T>`, its virtual functions having access to
program state `W` besides the blackboard: each takes the state of `W` before
the call and returns, with its result, the state of `W` after it. -/
structure action (W T : Type) where
  score : W → T → float × W
  apply : W → T → T × W

/-- The score and the effect on the blackboard are functions of the blackboard
alone: they are the same whatever the other program state is. -/
def action.deterministic {W T : Type} (a : action W T) : Prop :=
  (∀ (w1 w2 : W) (s : T), (a.score w1 s).1 = (a.score w2 s).1) ∧
  (∀ (w1 w2 : W) (s : T), (a.apply w1 s).1 = (a.apply w2 s).1)

/-- The alias `action_ptr<T>`. -/
abbrev action_ptr (W T : Type) : Type := action W T

/-- A raw `action<T>*` pointing into `m_actions`. -/
structure action_raw_ptr (W T : Type) where
  index : Nat
  target : action W T

/-- The class `evaluator<T>`: its only data member. -/
structure evaluator (W T : Type) where
  m_actions : List (action_ptr W T)

/-- The locals of `evaluator::run` while it scans the roster, and the calls
of `score` made so far. -/
structure run_locals (W T : Type) where
  best_score : float
  best_action : action_raw_ptr W T
  calls : List (call T)

/-- What a call of `run` leaves behind: the evaluator, the other program
state, the blackboard, and the virtual calls it made, in order. -/
structure run_result (W T : Type) where
  self : evaluator W T
  world : W
  blackboard : T
  calls : List (call T)

namespace evaluator

/-- One iteration of the `for` loop of `run`, on the action at position `i`. -/
def run_step {W T : Type} (blackboard : T) (i : Nat) (act : action_ptr W T)
    (st : run_locals W T × W) : run_locals W T × W :=
  let scored := act.score st.2 blackboard
  let score := scored.1
  if float.gt score st.1.best_score then
    ({ best_score := score
       best_action := { index := i, target := act }
       calls := st.1.calls ++ [call.score i blackboard] }, scored.2)
  else
    ({ st.1 with calls := st.1.calls ++ [call.score i blackboard] }, scored.2)

/-- The `for (auto& action : m_actions)` loop of `run`. -/
def run_loop {W T : Type} (blackboard : T) :
    List (action_ptr W T) → Nat → run_locals W T × W → run_locals W T × W
  | [], _, st => st
  | act :: rest, i, st => run_loop blackboard rest (i + 1) (run_step blackboard i act st)

/-- The locals of `run` before the loop. -/
def run_init {W T : Type} (front : action_ptr W T) : run_locals W T :=
  { best_score := numeric_limits_float_min
    best_action := { index := 0, target := front }
    calls := [] }

/-- The member function `evaluator::run`, called when the other program state
is `world`. -/
def run {W T : Type} (ev : evaluator W T) (world : W) (blackboard : T) : run_result W T :=
  match ev.m_actions with
  | [] => { self := ev, world := world, blackboard := blackboard, calls := [] }
  | front :: _ =>
    let st := run_loop blackboard ev.m_actions 0 (run_init front, world)
    let applied := st.1.best_action.target.apply st.2 blackboard
    { self := ev
      world := applied.2
      blackboard := applied.1
      calls := st.1.calls ++ [call.apply st.1.best_action.index blackboard] }

end evaluator

/-- A pure action seen as an action that leaves the other program state
alone. -/
def lift {W T : Type} (a : utility.action T) : action W T where
  score := fun w s => (a.score s, w)
  apply := fun w s => (a.apply s, w)

/-- An `action<int>` that counts the calls made on it in a global counter:
`score` returns the constant `q`, `apply` stores `tag` in the blackboard. -/
def counting_action (q : float) (tag : Int) : action Nat Int where
  score := fun counter _ => (q, counter + 1)
  apply := fun counter _ => (tag, counter + 1)

/-- Two counting actions scoring 1.0 and 2.0. -/
def counting_roster : evaluator Nat Int :=
  { m_actions := [counting_action (float.fin 1) 0, counting_action (float.fin 2) 1] }

/-- An `action<int>` whose score is the current value of a global counter. -/
def counter_scored_action (tag : Int) : action Nat Int where
  score := fun counter _ => (float.fin (Rat.ofInt (Int.ofNat counter)), counter + 1)
  apply := fun counter _ => (tag, counter)

/-- A counter-scored action followed by a counting action scoring 3.0. -/
def counter_scored_roster : evaluator Nat Int :=
  { m_actions := [counter_scored_action 0, counting_action (float.fin 3) 1] }

end stateful

/-- The least value of the C++ type `int` (32 bits, two's complement). -/
def INT_MIN : Int := -2147483648

/-- The greatest value of the C++ type `int`. -/
def INT_MAX : Int := 2147483647

/-- The C++ type `int`: an integer between `INT_MIN` and `INT_MAX`. -/
abbrev int : Type := { x : Int // INT_MIN ≤ x ∧ x ≤ INT_MAX }

namespace int

/-- The literal `0`. -/
instance zero_literal : OfNat int 0 := ⟨⟨0, by decide⟩⟩

/-- The literal `1`. -/
instance one_literal : OfNat int 1 := ⟨⟨1, by decide⟩⟩

/-- The operator `+` on `int` (also behind `+=`): the sum when it is
representable, and otherwise the sum reduced modulo `2^32` into the range of
`int`. -/
def add (a b : int) : int :=
  ⟨(a.val + b.val - INT_MIN) % 4294967296 + INT_MIN, by
    constructor <;> simp only [INT_MIN, INT_MAX] <;> omega⟩

end int

namespace usage_example

/-- The `blackboard_type` of the usage example in the header's documentation. -/
structure blackboard_type where
  food : int
  wood : int
  stone : int
  gold : int
  deriving DecidableEq

/-- The class `collect_food`. -/
def collect_food : action blackboard_type where
  score := fun _ => float.fin 50
  apply := fun blackboard => { blackboard with food := int.add blackboard.food 1 }

/-- The class `collect_wood`. -/
def collect_wood : action blackboard_type where
  score := fun _ => float.fin 150
  apply := fun blackboard => { blackboard with wood := int.add blackboard.wood 1 }

/-- The class `collect_stone`. -/
def collect_stone : action blackboard_type where
  score := fun _ => float.fin (-10)
  apply := fun blackboard => { blackboard with stone := int.add blackboard.stone 1 }

/-- The class `collect_gold`. -/
def collect_gold : action blackboard_type where
  score := fun _ => float.fin 75
  apply := fun blackboard => { blackboard with gold := int.add blackboard.gold 1 }

/-- The evaluator built at the end of the usage example. -/
def the_evaluator : evaluator blackboard_type :=
  { m_actions := action_list [collect_food, collect_wood, collect_stone, collect_gold] }

end usage_example

namespace utility_spec

/-- The `enum class effect` of the test file. -/
inductive effect where
  | a : effect
  | b : effect
  | c : effect
  deriving DecidableEq

/-- The `blackboard_type` of the test file. -/
structure blackboard_type where
  e : effect
  deriving DecidableEq

/-- The class `action_a` of the test case. -/
def action_a : action blackboard_type where
  score := fun _ => float.fin 1
  apply := fun _ => { e := effect.a }

/-- The class `action_b` of the test case. -/
def action_b : action blackboard_type where
  score := fun _ => float.fin 2
  apply := fun _ => { e := effect.b }

/-- The class `action_c` of the test case. -/
def action_c : action blackboard_type where
  score := fun _ => float.fin 3
  apply := fun _ => { e := effect.c }

/-- The evaluator `machine` of the subcase. -/
def machine : evaluator blackboard_type :=
  { m_actions := action_list [action_a, action_b, action_c] }

end utility_spec

/-! ## Probe rosters -/

/-- An `action<int>` whose `score` returns the constant `q` and whose `apply`
stores `tag` in the blackboard. -/
def constant_action (q : float) (tag : Int) : action Int where
  score := fun _ => q
  apply := fun _ => tag

/-- A blackboard holding one integer flag. -/
structure flag_blackboard where
  flag : Int
  deriving DecidableEq

/-- An `action<flag_blackboard>` whose `score` returns 5.0 and whose `apply`
stores `value` in the flag. -/
def set_flag (value : Int) : action flag_blackboard where
  score := fun _ => float.fin 5
  apply := fun _ => { flag := value }

/-- Two actions, both scoring below zero: the second scores higher. -/
def negative_roster : evaluator Int :=
  { m_actions := action_list
      [constant_action (float.fin (-2)) 0, constant_action (float.fin (-1)) 1] }

/-- Three actions: the last two tie at zero, above the first. -/
def tied_at_zero_roster : evaluator Int :=
  { m_actions := action_list
      [constant_action (float.fin (-1)) 0, constant_action (float.fin 0) 1,
       constant_action (float.fin 0) 2] }

/-- Two actions: the second, scoring zero, is strictly above the first. -/
def idle_roster : evaluator Int :=
  { m_actions := action_list
      [constant_action (float.fin (-3)) 0, constant_action (float.fin 0) 1] }

/-- One action scoring zero. -/
def zero_roster : evaluator Int :=
  { m_actions := action_list [constant_action (float.fin 0) 1] }

/-- Two actions: the front one scores NaN, the other scores below zero. -/
def nan_front_roster : evaluator Int :=
  { m_actions := action_list
      [constant_action float.nan 0, constant_action (float.fin (-1)) 1] }

/-! ## General facts about `action_list` and the loop of `run` -/

theorem action_list_foldl {T : Type} (l acc : List (action T)) :
    l.foldl (fun actions_list a => actions_list ++ [a]) acc = acc ++ l := by
  induction l generalizing acc with
  | nil => simp
  | cons a l ih => simp [ih]

/-- The vector returned by `action_list` holds its arguments in argument order. -/
theorem action_list_eq {T : Type} (l : List (action T)) : action_list l = l := by
  simp [action_list, action_list_foldl]

namespace float

theorem gt_irrefl (a : float) : gt a a = false := by
  cases a <;> simp [gt]

theorem gt_of_isnan_left (a b : float) (h : a.isnan = true) : gt a b = false := by
  cases a <;> simp_all [isnan, gt]

theorem not_isnan_of_gt (a b : float) (h : gt a b = true) : a.isnan = false := by
  cases a <;> simp_all [isnan, gt]

theorem gt_trans (a b c : float) (hab : gt a b = true) (hbc : gt b c = true) :
    gt a c = true := by
  cases a <;> cases b <;> cases c <;> simp_all [gt]
  exact lt_trans hbc hab

/-- Among non-NaN values `>` is the strict part of a total order: what is above
`b` is above everything that is not above `b`. -/
theorem gt_of_gt_of_not_gt (a b c : float) (hab : gt a b = true) (hcb : gt c b = false)
    (hc : c.isnan = false) : gt a c = true := by
  cases a <;> cases b <;> cases c <;> simp_all [gt, isnan]
  exact lt_of_le_of_lt hcb hab

/-- What is not above `b` is not above anything above `b`. -/
theorem not_gt_of_not_gt_of_gt (c b a : float) (hcb : gt c b = false) (hab : gt a b = true) :
    gt c a = false := by
  cases hca : gt c a with
  | false => rfl
  | true => rw [gt_trans c a b hca hab] at hcb; cases hcb

end float

namespace evaluator

theorem run_step_of_gt {T : Type} (bb : T) (i : Nat) (act : action_ptr T) (st : run_locals T)
    (h : float.gt (act.score bb) st.best_score = true) :
    run_step bb i act st =
      { best_score := act.score bb
        best_action := { index := i, target := act }
        calls := st.calls ++ [call.score i bb] } := by
  simp [run_step, h]

theorem run_step_of_not_gt {T : Type} (bb : T) (i : Nat) (act : action_ptr T)
    (st : run_locals T) (h : float.gt (act.score bb) st.best_score = false) :
    run_step bb i act st = { st with calls := st.calls ++ [call.score i bb] } := by
  simp [run_step, h]

/-- Every iteration logs exactly one call of `score`, on the blackboard itself. -/
theorem run_step_calls {T : Type} (bb : T) (i : Nat) (act : action_ptr T) (st : run_locals T) :
    (run_step bb i act st).calls = st.calls ++ [call.score i bb] := by
  by_cases h : float.gt (act.score bb) st.best_score = true
  · simp [run_step, h]
  · simp [run_step, h]

/-- The loop logs one call of `score` per action visited, in visiting order. -/
theorem run_loop_calls {T : Type} (bb : T) (l : List (action_ptr T)) :
    ∀ (i : Nat) (st : run_locals T),
      (run_loop bb l i st).calls =
        st.calls ++ (List.range' i l.length).map (fun k => call.score k bb) := by
  induction l with
  | nil => intro i st; simp [run_loop]
  | cons act rest ih =>
    intro i st
    simp [run_loop, ih, run_step_calls, List.range'_succ]

/-- An iteration keeps `best_action` pointing at an element of the roster. -/
theorem run_step_best_action {T : Type} (full : List (action_ptr T)) (bb : T) (i : Nat)
    (act : action_ptr T) (st : run_locals T) (hi : full[i]? = some act)
    (hst : full[st.best_action.index]? = some st.best_action.target) :
    full[(run_step bb i act st).best_action.index]? =
      some (run_step bb i act st).best_action.target := by
  by_cases h : float.gt (act.score bb) st.best_score = true
  · simpa [run_step, h] using hi
  · simpa [run_step, h] using hst

/-- The loop keeps `best_action` pointing at an element of the roster. -/
theorem run_loop_best_action {T : Type} (full : List (action_ptr T)) (bb : T)
    (rest : List (action_ptr T)) :
    ∀ (i : Nat) (st : run_locals T), full.drop i = rest →
      full[st.best_action.index]? = some st.best_action.target →
      full[(run_loop bb rest i st).best_action.index]? =
        some (run_loop bb rest i st).best_action.target := by
  induction rest with
  | nil => intro i st _ hst; simpa [run_loop] using hst
  | cons act rest ih =>
    intro i st hdrop hst
    have hi : full[i]? = some act := by
      have h0 : (full.drop i)[0]? = some act := by rw [hdrop]; simp
      simpa [List.getElem?_drop] using h0
    have hnext : full.drop (i + 1) = rest := by
      have h1 : (full.drop i).drop 1 = rest := by rw [hdrop]; rfl
      simpa [List.drop_drop, Nat.add_comm] using h1
    simp only [run_loop]
    exact ih (i + 1) _ hnext (run_step_best_action full bb i act st hi hst)

/-- On an empty roster `run` returns at once. -/
theorem run_of_empty {T : Type} (ev : evaluator T) (s : T) (h : ev.m_actions = []) :
    ev.run s = { self := ev, blackboard := s, calls := [] } := by
  unfold run
  split
  · rfl
  · next front tail hcons => rw [h] at hcons; cases hcons

/-- The evaluator is left as it was (`run` is a `const` member function). -/
theorem run_self {T : Type} (ev : evaluator T) (s : T) : (ev.run s).self = ev := by
  unfold run
  split <;> rfl

/-- Shape of a call of `run` on a non-empty roster: every action is scored on
the input blackboard, in roster order, then one action of the roster is
applied to it. -/
theorem run_of_nonempty {T : Type} (ev : evaluator T) (s : T) (h : ev.m_actions ≠ []) :
    ∃ (k : Nat) (hk : k < ev.m_actions.length),
      (ev.run s).blackboard = (ev.m_actions.get ⟨k, hk⟩).apply s ∧
      (ev.run s).calls =
        (List.range ev.m_actions.length).map (fun i => call.score i s) ++ [call.apply k s] := by
  unfold run
  split
  · next hnil => exact absurd hnil h
  · next front tail hcons =>
    have hptr := run_loop_best_action ev.m_actions s ev.m_actions 0
      { best_score := numeric_limits_float_min
        best_action := { index := 0, target := front }
        calls := [] } (by simp) (by simp [hcons])
    obtain ⟨hk, hget⟩ := List.getElem?_eq_some_iff.mp hptr
    refine ⟨_, hk, ?_, ?_⟩
    · simp only [List.get_eq_getElem, hget]
    · simp [run_loop_calls, List.range_eq_range']

/-- A property of the locals that every iteration carries from position `i` to
position `i + 1` holds after the loop if it holds before it. -/
theorem run_loop_invariant {T : Type} (full : List (action_ptr T)) (bb : T)
    (P : Nat → run_locals T → Prop)
    (hstep : ∀ (i : Nat) (act : action_ptr T) (st : run_locals T),
      full[i]? = some act → P i st → P (i + 1) (run_step bb i act st))
    (rest : List (action_ptr T)) :
    ∀ (i : Nat) (st : run_locals T), full.drop i = rest → P i st →
      P (i + rest.length) (run_loop bb rest i st) := by
  induction rest with
  | nil => intro i st _ hP; simpa [run_loop] using hP
  | cons act rest ih =>
    intro i st hdrop hP
    have hi : full[i]? = some act := by
      have h0 : (full.drop i)[0]? = some act := by rw [hdrop]; simp
      simpa [List.getElem?_drop] using h0
    have hnext : full.drop (i + 1) = rest := by
      have h1 : (full.drop i).drop 1 = rest := by rw [hdrop]; rfl
      simpa [List.drop_drop, Nat.add_comm] using h1
    have hlen : i + (act :: rest).length = i + 1 + rest.length := by
      simp [List.length_cons]; omega
    rw [hlen]
    simp only [run_loop]
    exact ih (i + 1) _ hnext (hstep i act st hi hP)

/-- Outcome of the loop when no score is NaN. Either no score exceeds
`numeric_limits<float>::min()` and `best_action` still is the front of the
roster, or `best_action` is an action whose score exceeds it, that no action
outscores and that outscores every action before it. -/
theorem run_loop_selects {T : Type} (full : List (action_ptr T)) (bb : T)
    (front : action_ptr T)
    (hnan : ∀ a ∈ full, (a.score bb).isnan = false) :
    ((run_loop bb full 0 (run_init front)).best_action.index = 0 ∧
      (run_loop bb full 0 (run_init front)).best_action.target = front ∧
      ∀ (j : Nat) (b : action_ptr T), full[j]? = some b →
        float.gt (b.score bb) numeric_limits_float_min = false) ∨
    (∃ a : action_ptr T,
      full[(run_loop bb full 0 (run_init front)).best_action.index]? = some a ∧
      float.gt (a.score bb) numeric_limits_float_min = true ∧
      (∀ (j : Nat) (b : action_ptr T), full[j]? = some b →
        float.gt (b.score bb) (a.score bb) = false) ∧
      (∀ (j : Nat) (b : action_ptr T),
        j < (run_loop bb full 0 (run_init front)).best_action.index → full[j]? = some b →
        float.gt (a.score bb) (b.score bb) = true)) := by
  have key := run_loop_invariant full bb
    (fun i st =>
      (st.best_score = numeric_limits_float_min ∧ st.best_action.index = 0 ∧
        st.best_action.target = front ∧
        ∀ (j : Nat) (b : action_ptr T), j < i → full[j]? = some b →
          float.gt (b.score bb) numeric_limits_float_min = false) ∨
      (∃ a : action_ptr T, full[st.best_action.index]? = some a ∧
        st.best_score = a.score bb ∧
        float.gt (a.score bb) numeric_limits_float_min = true ∧
        (∀ (j : Nat) (b : action_ptr T), j < i → full[j]? = some b →
          float.gt (b.score bb) (a.score bb) = false) ∧
        (∀ (j : Nat) (b : action_ptr T), j < st.best_action.index → full[j]? = some b →
          float.gt (a.score bb) (b.score bb) = true)))
    (by
      intro i act st hi hP
      cases hgt : float.gt (act.score bb) st.best_score with
      | true =>
        rw [run_step_of_gt bb i act st hgt]
        right
        refine ⟨act, hi, rfl, ?_, ?_, ?_⟩
        · rcases hP with ⟨hbest, _, _, _⟩ | ⟨a, _, hbest, hamin, _, _⟩
          · rw [← hbest]; exact hgt
          · rw [hbest] at hgt
            exact float.gt_trans _ _ _ hgt hamin
        · intro j b hj hb
          rcases Nat.lt_succ_iff_lt_or_eq.mp hj with hlt | heq
          · rcases hP with ⟨hbest, _, _, hall⟩ | ⟨a, _, hbest, _, hall, _⟩
            · rw [hbest] at hgt
              exact float.not_gt_of_not_gt_of_gt _ _ _ (hall j b hlt hb) hgt
            · rw [hbest] at hgt
              exact float.not_gt_of_not_gt_of_gt _ _ _ (hall j b hlt hb) hgt
          · subst heq
            rw [hi] at hb
            cases hb
            exact float.gt_irrefl _
        · intro j b hj hb
          have hbnan : (b.score bb).isnan = false := hnan b (List.getElem?_mem hb)
          rcases hP with ⟨hbest, _, _, hall⟩ | ⟨a, _, hbest, _, hall, _⟩
          · rw [hbest] at hgt
            exact float.gt_of_gt_of_not_gt _ _ _ hgt (hall j b hj hb) hbnan
          · rw [hbest] at hgt
            exact float.gt_of_gt_of_not_gt _ _ _ hgt (hall j b hj hb) hbnan
      | false =>
        rw [run_step_of_not_gt bb i act st hgt]
        rcases hP with ⟨hbest, hidx, htgt, hall⟩ | ⟨a, ha, hbest, hamin, hall, hbefore⟩
        · left
          refine ⟨hbest, hidx, htgt, ?_⟩
          intro j b hj hb
          rcases Nat.lt_succ_iff_lt_or_eq.mp hj with hlt | heq
          · exact hall j b hlt hb
          · subst heq
            rw [hi] at hb
            cases hb
            rw [← hbest]; exact hgt
        · right
          refine ⟨a, ha, hbest, hamin, ?_, hbefore⟩
          intro j b hj hb
          rcases Nat.lt_succ_iff_lt_or_eq.mp hj with hlt | heq
          · exact hall j b hlt hb
          · subst heq
            rw [hi] at hb
            cases hb
            rw [← hbest]; exact hgt)
    full 0 (run_init front) (by simp)
    (Or.inl ⟨rfl, rfl, rfl, fun j b hj _ => absurd hj (Nat.not_lt_zero j)⟩)
  have hbound : ∀ (j : Nat) (b : action_ptr T), full[j]? = some b → j < 0 + full.length := by
    intro j b hb
    have := (List.getElem?_eq_some_iff.mp hb).1
    omega
  rcases key with ⟨_, hidx, htgt, hall⟩ | ⟨a, ha, _, hamin, hall, hbefore⟩
  · exact Or.inl ⟨hidx, htgt, fun j b hb => hall j b (hbound j b hb) hb⟩
  · exact Or.inr ⟨a, ha, hamin, fun j b hb => hall j b (hbound j b hb) hb, hbefore⟩

/-- When no score exceeds `numeric_limits<float>::min()` (NaN scores included)
the loop never assigns its locals: `best_action` still is the front. -/
theorem run_loop_keeps_front {T : Type} (full : List (action_ptr T)) (bb : T)
    (front : action_ptr T)
    (hnone : ∀ a ∈ full, float.gt (a.score bb) numeric_limits_float_min = false) :
    (run_loop bb full 0 (run_init front)).best_score = numeric_limits_float_min ∧
    (run_loop bb full 0 (run_init front)).best_action.index = 0 ∧
    (run_loop bb full 0 (run_init front)).best_action.target = front := by
  exact run_loop_invariant full bb
    (fun _ st => st.best_score = numeric_limits_float_min ∧ st.best_action.index = 0 ∧
      st.best_action.target = front)
    (by
      intro i act st hi hP
      obtain ⟨hbest, hidx, htgt⟩ := hP
      have hgt : float.gt (act.score bb) st.best_score = false := by
        rw [hbest]; exact hnone act (List.getElem?_mem hi)
      rw [run_step_of_not_gt bb i act st hgt]
      exact ⟨hbest, hidx, htgt⟩)
    full 0 (run_init front) (by simp) ⟨rfl, rfl, rfl⟩

/-- After the loop `best_action` is the front of the roster or an action whose
score is not NaN. -/
theorem run_loop_best_not_nan {T : Type} (full : List (action_ptr T)) (bb : T)
    (front : action_ptr T) :
    (run_loop bb full 0 (run_init front)).best_action.index = 0 ∨
    ((run_loop bb full 0 (run_init front)).best_action.target.score bb).isnan = false := by
  exact run_loop_invariant full bb
    (fun _ st => st.best_action.index = 0 ∨ (st.best_action.target.score bb).isnan = false)
    (by
      intro i act st _ hP
      cases hgt : float.gt (act.score bb) st.best_score with
      | true =>
        rw [run_step_of_gt bb i act st hgt]
        exact Or.inr (float.not_isnan_of_gt _ _ hgt)
      | false =>
        rw [run_step_of_not_gt bb i act st hgt]
        exact hP)
    full 0 (run_init front) (by simp) (Or.inl rfl)

/-- On a roster with a front element, `run` is the loop started from
`run_init`, followed by one `apply` through `best_action`. -/
theorem run_of_cons {T : Type} (ev : evaluator T) (s : T) (front : action_ptr T)
    (tail : List (action_ptr T)) (h : ev.m_actions = front :: tail) :
    ev.run s =
      { self := ev
        blackboard :=
          (run_loop s ev.m_actions 0 (run_init front)).best_action.target.apply s
        calls := (run_loop s ev.m_actions 0 (run_init front)).calls ++
          [call.apply (run_loop s ev.m_actions 0 (run_init front)).best_action.index s] } := by
  unfold run
  split
  · next hnil => rw [h] at hnil; cases hnil
  · next front2 tail2 hcons =>
    rw [h] at hcons
    cases hcons
    rfl

/-- The position `run` applies is the one `best_action` holds after the loop. -/
theorem apply_mem_calls_iff {T : Type} (ev : evaluator T) (s : T) (front : action_ptr T)
    (tail : List (action_ptr T)) (h : ev.m_actions = front :: tail) (k : Nat) :
    call.apply k s ∈ (ev.run s).calls ↔
      (run_loop s ev.m_actions 0 (run_init front)).best_action.index = k := by
  rw [run_of_cons ev s front tail h]
  simp [run_loop_calls, run_init, eq_comm]

/-- The calls of `apply` made by `run` on a roster with a front element. -/
theorem filter_apply_calls {T : Type} (ev : evaluator T) (s : T) (front : action_ptr T)
    (tail : List (action_ptr T)) (h : ev.m_actions = front :: tail) :
    (ev.run s).calls.filter call.is_apply =
      [call.apply (run_loop s ev.m_actions 0 (run_init front)).best_action.index s] := by
  rw [run_of_cons ev s front tail h]
  simp [run_loop_calls, run_init, List.filter_append, List.filter_map,
    List.filter_eq_nil_iff, call.is_apply, Function.comp_def]

end evaluator

/-! ## Actions with access to other program state -/

namespace stateful

namespace evaluator

/-- An iteration on an action with a deterministic score leaves the same
locals whatever the other program state is. -/
theorem run_step_locals_agree {W T : Type} (bb : T) (i : Nat) (act : action_ptr W T)
    (hact : act.deterministic) (st : run_locals W T) (w1 w2 : W) :
    (run_step bb i act (st, w1)).1 = (run_step bb i act (st, w2)).1 := by
  have hscore := hact.1 w1 w2 bb
  by_cases hgt : float.gt (act.score w2 bb).1 st.best_score = true
  · simp [run_step, hscore, hgt]
  · simp [run_step, hscore, hgt]

/-- The loop over actions with deterministic scores leaves the same locals
whatever the other program state is. -/
theorem run_loop_locals_agree {W T : Type} (bb : T) (rest : List (action_ptr W T)) :
    (∀ a ∈ rest, a.deterministic) → ∀ (i : Nat) (st : run_locals W T) (w1 w2 : W),
      (run_loop bb rest i (st, w1)).1 = (run_loop bb rest i (st, w2)).1 := by
  induction rest with
  | nil => intro _ i st w1 w2; rfl
  | cons act rest ih =>
    intro hdet i st w1 w2
    have hact : act.deterministic := hdet act (List.mem_cons_self act rest)
    have hrest : ∀ a ∈ rest, a.deterministic :=
      fun a ha => hdet a (List.mem_cons_of_mem act ha)
    have hstep := run_step_locals_agree bb i act hact st w1 w2
    simp only [run_loop]
    have e1 : run_step bb i act (st, w1) =
        ((run_step bb i act (st, w1)).1, (run_step bb i act (st, w1)).2) := rfl
    have e2 : run_step bb i act (st, w2) =
        ((run_step bb i act (st, w2)).1, (run_step bb i act (st, w2)).2) := rfl
    rw [e1, e2, hstep]
    exact ih hrest (i + 1) _ _ _

/-- After the loop `best_action` points at the action it pointed at before the
loop or at one of the actions visited. -/
theorem run_loop_target_mem {W T : Type} (bb : T) (rest : List (action_ptr W T)) :
    ∀ (i : Nat) (st : run_locals W T × W),
      (run_loop bb rest i st).1.best_action.target = st.1.best_action.target ∨
      (run_loop bb rest i st).1.best_action.target ∈ rest := by
  induction rest with
  | nil => intro i st; exact Or.inl rfl
  | cons act rest ih =>
    intro i st
    simp only [run_loop]
    rcases ih (i + 1) (run_step bb i act st) with h | h
    · rw [h]
      by_cases hgt : float.gt (act.score st.2 bb).1 st.1.best_score = true
      · right; simp [run_step, hgt]
      · left; simp [run_step, hgt]
    · exact Or.inr (List.mem_cons_of_mem act h)

/-- The evaluator is left as it was. -/
theorem run_leaves_evaluator {W T : Type} (ev : evaluator W T) (w : W) (s : T) :
    (ev.run w s).self = ev := by
  unfold run
  split <;> rfl

/-- With deterministic actions the calls made by `run` do not depend on the
other program state. -/
theorem run_calls_agree {W T : Type} (ev : evaluator W T)
    (hdet : ∀ a ∈ ev.m_actions, a.deterministic) (w1 w2 : W) (s : T) :
    (ev.run w1 s).calls = (ev.run w2 s).calls := by
  unfold run
  split
  · rfl
  · next front tail hcons =>
    simp only [run_loop_locals_agree s ev.m_actions hdet 0 (run_init front) w1 w2]

/-- With deterministic actions the blackboard left by `run` does not depend on
the other program state. -/
theorem run_blackboard_agree {W T : Type} (ev : evaluator W T)
    (hdet : ∀ a ∈ ev.m_actions, a.deterministic) (w1 w2 : W) (s : T) :
    (ev.run w1 s).blackboard = (ev.run w2 s).blackboard := by
  unfold run
  split
  · rfl
  · next front tail hcons =>
    have hloc := run_loop_locals_agree s ev.m_actions hdet 0 (run_init front) w1 w2
    have htarget : (run_loop s ev.m_actions 0 (run_init front, w2)).1.best_action.target
        ∈ ev.m_actions := by
      rcases run_loop_target_mem s ev.m_actions 0 (run_init front, w2) with h | h
      · rw [h, hcons]; exact List.mem_cons_self front tail
      · exact h
    simp only [hloc]
    exact (hdet _ htarget).2 _ _ s

end evaluator

/-- Lifting a pure roster changes nothing to the locals of the loop. -/
theorem run_loop_lift {W T : Type} (bb : T) (w : W) (rest : List (utility.action T)) :
    ∀ (i : Nat) (st : utility.run_locals T),
      evaluator.run_loop bb (rest.map lift) i
        ({ best_score := st.best_score
           best_action := { index := st.best_action.index, target := lift st.best_action.target }
           calls := st.calls }, w) =
      ({ best_score := (utility.evaluator.run_loop bb rest i st).best_score
         best_action :=
          { index := (utility.evaluator.run_loop bb rest i st).best_action.index
            target := lift (utility.evaluator.run_loop bb rest i st).best_action.target }
         calls := (utility.evaluator.run_loop bb rest i st).calls }, w) := by
  induction rest with
  | nil => intro i st; rfl
  | cons act rest ih =>
    intro i st
    simp only [List.map_cons, evaluator.run_loop, utility.evaluator.run_loop]
    rw [← ih (i + 1) (utility.evaluator.run_step bb i act st)]
    congr 1
    by_cases hgt : float.gt (act.score bb) st.best_score = true
    · simp [evaluator.run_step, utility.evaluator.run_step, lift, hgt]
    · simp [evaluator.run_step, utility.evaluator.run_step, lift, hgt]

/-- On a roster of pure actions the two readings of `run` agree: same
blackboard, same calls, and the other program state untouched. -/
theorem run_lift {W T : Type} (ev : utility.evaluator T) (w : W) (s : T) :
    (evaluator.run { m_actions := ev.m_actions.map lift } w s).blackboard =
      (ev.run s).blackboard ∧
    (evaluator.run { m_actions := ev.m_actions.map lift } w s).calls = (ev.run s).calls ∧
    (evaluator.run { m_actions := ev.m_actions.map lift } w s).world = w := by
  cases hm : ev.m_actions with
  | nil => simp [evaluator.run, utility.evaluator.run, hm]
  | cons front tail =>
    have hloop := run_loop_lift s w (front :: tail) 0
      { best_score := numeric_limits_float_min
        best_action := { index := 0, target := front }
        calls := [] }
    simp only [List.map_cons] at hloop
    simp only [evaluator.run, utility.evaluator.run, hm, List.map_cons, evaluator.run_init,
      hloop]
    exact ⟨rfl, trivial, rfl⟩

/-- Without determinism of the actions the outcome of `run` can depend on the
other program state: with the counter at 0 the counter-scored action loses to
the score 3.0, with the counter at 10 it wins. -/
theorem run_counter_scored_depends_on_world :
    (counter_scored_roster.run 0 7).blackboard = 1 ∧
    (counter_scored_roster.run 10 7).blackboard = 0 ∧
    (counter_scored_roster.run 0 7).calls ≠ (counter_scored_roster.run 10 7).calls := by
  decide

/-- The actions of `counting_roster` are deterministic. -/
theorem counting_roster_deterministic : ∀ a ∈ counting_roster.m_actions, a.deterministic := by
  intro a ha
  simp only [counting_roster, List.mem_cons, List.mem_singleton, List.not_mem_nil, or_false]
    at ha
  rcases ha with rfl | rfl <;> exact ⟨fun _ _ _ => rfl, fun _ _ _ => rfl⟩

end stateful

/-! ## The usage example -/

/-- Adding `1` to an `int` below `INT_MAX` gives the next integer. -/
theorem int.add_one_val (a : int) (h : a.val < INT_MAX) : (int.add a 1).val = a.val + 1 := by
  have hlo := a.property.1
  have h1 : (1 : int).val = 1 := rfl
  simp only [int.add, h1]
  simp only [INT_MIN, INT_MAX] at *
  omega

/-- On the roster of the usage example `run` applies `collect_wood`. -/
theorem usage_example.run_eq_collect_wood (bb : usage_example.blackboard_type) :
    (usage_example.the_evaluator.run bb).blackboard = usage_example.collect_wood.apply bb := by
  have h1 : float.gt (float.fin 50) numeric_limits_float_min = true := by decide
  have h2 : float.gt (float.fin 150) (float.fin 50) = true := by decide
  have h3 : float.gt (float.fin (-10)) (float.fin 150) = false := by decide
  have h4 : float.gt (float.fin 75) (float.fin 150) = false := by decide
  simp [usage_example.the_evaluator, action_list_eq, evaluator.run, evaluator.run_loop,
    evaluator.run_step, usage_example.collect_food, usage_example.collect_wood,
    usage_example.collect_stone, usage_example.collect_gold, h1, h2, h3, h4]

/-! ## The contract of `run` -/

/-- C1, at a failing input. On the roster [score -2 / store 0, score -1 /
store 1] and blackboard 7 (no NaN involved), `run` applies the action at
position 0 although the action at position 1 scores strictly higher: the
running best starts at `numeric_limits<float>::min()`, a positive number that
neither score exceeds. -/
theorem run_applies_lower_score_in_negative_roster :
    (negative_roster.run 7).blackboard = 0 ∧
    (negative_roster.run 7).calls = [call.score 0 7, call.score 1 7, call.apply 0 7] ∧
    float.gt ((constant_action (float.fin (-1)) 1).score 7)
      ((constant_action (float.fin (-2)) 0).score 7) = true := by
  decide

/-- C2. On an empty roster `run` returns with the blackboard equal to the one
it was given, having called neither `score` nor `apply`. -/
theorem run_empty_roster_leaves_state {T : Type} (ev : evaluator T) (s : T)
    (h : ev.m_actions = []) :
    (ev.run s).blackboard = s ∧ (ev.run s).calls = [] := by
  rw [evaluator.run_of_empty ev s h]
  exact ⟨rfl, rfl⟩

theorem run_empty_roster_leaves_state_witness :
    (evaluator.mk (action_list ([] : List (action Int)))).m_actions = [] ∧
    ((evaluator.mk (action_list ([] : List (action Int)))).run 5).blackboard = 5 ∧
    ((evaluator.mk (action_list ([] : List (action Int)))).run 5).calls = [] :=
  ⟨rfl, run_empty_roster_leaves_state _ 5 rfl⟩

/-- C3. On a non-empty roster `run` calls `apply` exactly once: some position
`i` of the roster is such that the blackboard after `run` is what the action
at `i` makes of the input blackboard, and the calls of `apply` made by `run`
are that single call. -/
theorem run_nonempty_applies_exactly_once {T : Type} (ev : evaluator T) (s : T)
    (h : ev.m_actions ≠ []) :
    ∃ (i : Nat) (hi : i < ev.m_actions.length),
      (ev.run s).blackboard = (ev.m_actions.get ⟨i, hi⟩).apply s ∧
      (ev.run s).calls.filter call.is_apply = [call.apply i s] ∧
      ((ev.run s).calls.filter call.is_apply).length = 1 := by
  obtain ⟨k, hk, hbb, hcalls⟩ := evaluator.run_of_nonempty ev s h
  have hfilter : (ev.run s).calls.filter call.is_apply = [call.apply k s] := by
    rw [hcalls]
    simp [List.filter_append, List.filter_map, List.filter_eq_nil_iff, call.is_apply,
      Function.comp_def]
  exact ⟨k, hk, hbb, hfilter, by rw [hfilter]; rfl⟩

theorem run_nonempty_applies_exactly_once_witness :
    utility_spec.machine.m_actions ≠ [] ∧
    ∃ (i : Nat) (hi : i < utility_spec.machine.m_actions.length),
      (utility_spec.machine.run { e := utility_spec.effect.a }).blackboard =
        (utility_spec.machine.m_actions.get ⟨i, hi⟩).apply { e := utility_spec.effect.a } ∧
      (utility_spec.machine.run { e := utility_spec.effect.a }).calls.filter call.is_apply =
        [call.apply i { e := utility_spec.effect.a }] ∧
      ((utility_spec.machine.run { e := utility_spec.effect.a }).calls.filter
        call.is_apply).length = 1 :=
  ⟨by simp [utility_spec.machine, action_list_eq],
   run_nonempty_applies_exactly_once utility_spec.machine { e := utility_spec.effect.a }
     (by simp [utility_spec.machine, action_list_eq])⟩

/-- C4, at a failing input. On the roster [score -1 / store 0, score 0 /
store 1, score 0 / store 2] the maximal score 0 is attained at positions 1 and
2 only, yet `run` applies the action at position 0. -/
theorem run_misses_tied_maximum_at_zero :
    (tied_at_zero_roster.run 7).blackboard = 0 ∧
    (tied_at_zero_roster.run 7).calls.filter call.is_apply = [call.apply 0 7] ∧
    tied_at_zero_roster.m_actions.map (fun a => a.score 7) =
      [float.fin (-1), float.fin 0, float.fin 0] ∧
    float.gt (float.fin 0) (float.fin (-1)) = true := by
  decide

/-- C5, at a failing input. On the roster [score -3 / store 0, score 0 /
store 1] the action at position 1 scores strictly above the only other
action, yet `run` applies the action at position 0. -/
theorem run_ignores_strictly_best_zero_score :
    float.gt ((idle_roster.m_actions.get ⟨1, by decide⟩).score 7)
      ((idle_roster.m_actions.get ⟨0, by decide⟩).score 7) = true ∧
    (idle_roster.run 7).blackboard = (idle_roster.m_actions.get ⟨0, by decide⟩).apply 7 ∧
    (idle_roster.run 7).blackboard ≠ (idle_roster.m_actions.get ⟨1, by decide⟩).apply 7 ∧
    (idle_roster.run 7).calls.filter call.is_apply = [call.apply 0 7] := by
  decide

/-- C6. One call of `run` on a roster of `n` actions calls `score` exactly
once on each action, in roster order and each time on the input blackboard
(`n` calls in all, none when the roster is empty), and every call of `score`
comes before any call of `apply`. -/
theorem run_scores_each_action_once_in_order {T : Type} (ev : evaluator T) (s : T) :
    (ev.run s).calls.filter call.is_score =
      (List.range ev.m_actions.length).map (fun i => call.score i s) ∧
    ((ev.run s).calls.filter call.is_score).length = ev.m_actions.length ∧
    (ev.run s).calls =
      (ev.run s).calls.filter call.is_score ++ (ev.run s).calls.filter call.is_apply := by
  by_cases h : ev.m_actions = []
  · rw [evaluator.run_of_empty ev s h]
    simp [h]
  · obtain ⟨k, _, _, hcalls⟩ := evaluator.run_of_nonempty ev s h
    have hs : (ev.run s).calls.filter call.is_score =
        (List.range ev.m_actions.length).map (fun i => call.score i s) := by
      rw [hcalls]
      simp [List.filter_append, List.filter_map, call.is_score, Function.comp_def]
    have ha : (ev.run s).calls.filter call.is_apply = [call.apply k s] := by
      rw [hcalls]
      simp [List.filter_append, List.filter_map, List.filter_eq_nil_iff, call.is_apply,
        Function.comp_def]
    refine ⟨hs, ?_, ?_⟩
    · rw [hs]; simp
    · rw [hs, ha]; exact hcalls

/-- C7 (scenario A), as amended. On the roster of the header's usage example
(`collect_food` 50, `collect_wood` 150, `collect_stone` -10, `collect_gold`
75), for every initial blackboard whose `wood` is below `INT_MAX`, `run` adds
exactly one to `wood` and leaves `food`, `stone` and `gold` as they were. -/
theorem run_usage_example_collects_wood (bb : usage_example.blackboard_type)
    (hwood : bb.wood.val < INT_MAX) :
    (usage_example.the_evaluator.run bb).blackboard.wood.val = bb.wood.val + 1 ∧
    (usage_example.the_evaluator.run bb).blackboard.food = bb.food ∧
    (usage_example.the_evaluator.run bb).blackboard.stone = bb.stone ∧
    (usage_example.the_evaluator.run bb).blackboard.gold = bb.gold := by
  rw [usage_example.run_eq_collect_wood bb]
  exact ⟨int.add_one_val bb.wood hwood, rfl, rfl, rfl⟩

theorem run_usage_example_collects_wood_witness :
    (usage_example.blackboard_type.mk 0 0 0 0).wood.val < INT_MAX ∧
    ((usage_example.the_evaluator.run { food := 0, wood := 0, stone := 0, gold := 0 }).blackboard.wood.val
        = (usage_example.blackboard_type.mk 0 0 0 0).wood.val + 1 ∧
      (usage_example.the_evaluator.run { food := 0, wood := 0, stone := 0, gold := 0 }).blackboard.food
        = (usage_example.blackboard_type.mk 0 0 0 0).food ∧
      (usage_example.the_evaluator.run { food := 0, wood := 0, stone := 0, gold := 0 }).blackboard.stone
        = (usage_example.blackboard_type.mk 0 0 0 0).stone ∧
      (usage_example.the_evaluator.run { food := 0, wood := 0, stone := 0, gold := 0 }).blackboard.gold
        = (usage_example.blackboard_type.mk 0 0 0 0).gold) :=
  ⟨by decide, run_usage_example_collects_wood { food := 0, wood := 0, stone := 0, gold := 0 }
    (by decide)⟩

/-- C7, as first stated, fails at the blackboard whose `wood` is `INT_MAX` (the
other fields 0): `collect_wood` is applied, its `wood += 1` overflows, and the
blackboard after `run` has `wood = INT_MIN`, which is not the input's `wood`
plus one. -/
theorem run_usage_example_overflows_at_int_max :
    (usage_example.the_evaluator.run
        { food := 0, wood := ⟨INT_MAX, by decide⟩, stone := 0, gold := 0 }).blackboard.wood.val
      = INT_MIN ∧
    ¬ ((usage_example.the_evaluator.run
        { food := 0, wood := ⟨INT_MAX, by decide⟩, stone := 0, gold := 0 }).blackboard.wood.val
      = (usage_example.blackboard_type.mk 0 ⟨INT_MAX, by decide⟩ 0 0).wood.val + 1) := by
  decide

/-- C8 (scenario B). On the roster of the test case (`action_a` 1.0,
`action_b` 2.0, `action_c` 3.0, built with `action_list` in that order),
whatever the initial blackboard, the blackboard after `run` has `e = c`. -/
theorem run_test_case_sets_effect_c (bb : utility_spec.blackboard_type) :
    (utility_spec.machine.run bb).blackboard.e = utility_spec.effect.c := by
  have h1 : float.gt (float.fin 1) numeric_limits_float_min = true := by decide
  have h2 : float.gt (float.fin 2) (float.fin 1) = true := by decide
  have h3 : float.gt (float.fin 3) (float.fin 2) = true := by decide
  simp [utility_spec.machine, action_list_eq, evaluator.run, evaluator.run_loop, evaluator.run_step,
    utility_spec.action_a, utility_spec.action_b, utility_spec.action_c, h1, h2, h3]

/-- C9 (scenario D). For two actions that both score 5.0 on every state, the
first setting the flag to 1 and the second setting it to 2, and for every
initial state, `run` on the roster of these two in that order applies the
first one: the flag is 1 afterwards. -/
theorem run_tie_at_five_keeps_first {T : Type} (flag : T → Int) (first second : action T)
    (hfirst : ∀ s, first.score s = float.fin 5) (hsecond : ∀ s, second.score s = float.fin 5)
    (hset1 : ∀ s, flag (first.apply s) = 1) (hset2 : ∀ s, flag (second.apply s) = 2)
    (s : T) :
    flag ((evaluator.mk (action_list [first, second])).run s).blackboard = 1 ∧
    ((evaluator.mk (action_list [first, second])).run s).calls.filter call.is_apply =
      [call.apply 0 s] := by
  have _ := hset2
  have h1 : float.gt (float.fin 5) numeric_limits_float_min = true := by decide
  have h2 : float.gt (float.fin 5) (float.fin 5) = false := by decide
  simp [action_list_eq, evaluator.run, evaluator.run_loop, evaluator.run_step, hfirst, hsecond, hset1, h1, h2,
    call.is_apply]

theorem run_tie_at_five_keeps_first_witness :
    (∀ s, (set_flag 1).score s = float.fin 5) ∧ (∀ s, (set_flag 2).score s = float.fin 5) ∧
    (∀ s, flag_blackboard.flag ((set_flag 1).apply s) = 1) ∧
    (∀ s, flag_blackboard.flag ((set_flag 2).apply s) = 2) ∧
    (flag_blackboard.flag
        ((evaluator.mk (action_list [set_flag 1, set_flag 2])).run { flag := 0 }).blackboard = 1 ∧
      ((evaluator.mk (action_list [set_flag 1, set_flag 2])).run { flag := 0 }).calls.filter
          call.is_apply = [call.apply 0 { flag := 0 }]) :=
  ⟨fun _ => rfl, fun _ => rfl, fun _ => rfl, fun _ => rfl,
   run_tie_at_five_keeps_first flag_blackboard.flag (set_flag 1) (set_flag 2) (fun _ => rfl)
     (fun _ => rfl) (fun _ => rfl) (fun _ => rfl) { flag := 0 }⟩

/-- C10. Determinism and statelessness, the virtual functions having access
to other program state: when the score and the effect of every action of the
roster are functions of the blackboard alone, then on equal states `run` with
the same evaluator makes the same calls (hence selects the same position) and
leaves equal blackboards, whatever the other program state is at the two
calls; `run` leaves the evaluator as it was; and a call of `run` that follows
an earlier call on that evaluator has the outcome of a first call. -/
theorem run_deterministic_and_stateless {W T : Type} (ev : stateful.evaluator W T)
    (hdet : ∀ a ∈ ev.m_actions, a.deterministic) (w1 w2 : W) (s1 s2 : T) (h : s1 = s2) :
    (ev.run w1 s1).calls = (ev.run w2 s2).calls ∧
    (ev.run w1 s1).blackboard = (ev.run w2 s2).blackboard ∧
    (ev.run w1 s1).self = ev ∧
    (∀ s0 : T,
      ((ev.run w1 s0).self.run (ev.run w1 s0).world s1).calls = (ev.run w2 s2).calls ∧
      ((ev.run w1 s0).self.run (ev.run w1 s0).world s1).blackboard =
        (ev.run w2 s2).blackboard) := by
  subst h
  refine ⟨stateful.evaluator.run_calls_agree ev hdet w1 w2 s1,
    stateful.evaluator.run_blackboard_agree ev hdet w1 w2 s1,
    stateful.evaluator.run_leaves_evaluator ev w1 s1, fun s0 => ?_⟩
  rw [stateful.evaluator.run_leaves_evaluator ev w1 s0]
  exact ⟨stateful.evaluator.run_calls_agree ev hdet _ w2 s1,
    stateful.evaluator.run_blackboard_agree ev hdet _ w2 s1⟩

theorem run_deterministic_and_stateless_witness :
    (∀ a ∈ stateful.counting_roster.m_actions, a.deterministic) ∧ ((7 : Int) = 7) ∧
    ((stateful.counting_roster.run 0 7).calls = (stateful.counting_roster.run 5 7).calls ∧
     (stateful.counting_roster.run 0 7).blackboard =
       (stateful.counting_roster.run 5 7).blackboard ∧
     (stateful.counting_roster.run 0 7).self = stateful.counting_roster ∧
     (∀ s0 : Int,
       ((stateful.counting_roster.run 0 s0).self.run
           (stateful.counting_roster.run 0 s0).world 7).calls =
         (stateful.counting_roster.run 5 7).calls ∧
       ((stateful.counting_roster.run 0 s0).self.run
           (stateful.counting_roster.run 0 s0).world 7).blackboard =
         (stateful.counting_roster.run 5 7).blackboard)) :=
  ⟨stateful.counting_roster_deterministic, rfl,
   run_deterministic_and_stateless stateful.counting_roster
     stateful.counting_roster_deterministic 0 5 7 7 rfl⟩

/-! ## How the loop of `run` picks the action -/

set_option maxRecDepth 4000 in
/-- C11, at a failing input. On the roster of one action scoring 0.0 the
running best score starts at `numeric_limits<float>::min()`, which is strictly
greater than the score 0.0 and is not `numeric_limits<float>::lowest()`: the
loop ends with the running best score still at its initial value, the score
0.0 never having become the running best. -/
theorem run_starts_best_score_above_zero :
    (evaluator.run_init (constant_action (float.fin 0) 1)).best_score =
      numeric_limits_float_min ∧
    float.gt (evaluator.run_init (constant_action (float.fin 0) 1)).best_score
      ((constant_action (float.fin 0) 1).score 7) = true ∧
    numeric_limits_float_min ≠ numeric_limits_float_lowest ∧
    (evaluator.run_loop 7 zero_roster.m_actions 0
      (evaluator.run_init (constant_action (float.fin 0) 1))).best_score =
      numeric_limits_float_min := by
  decide

/-- C12. First-seen-wins: on a non-empty roster whose scores are not NaN, if
`run` applies the action at position `k` then that action scores strictly
above every action at a position `j < k`; and an iteration whose action scores
exactly the running best leaves `best_action` and `best_score` as they are. -/
theorem run_first_seen_wins {T : Type} (ev : evaluator T) (s : T)
    (hne : ev.m_actions ≠ [])
    (hnan : ∀ a ∈ ev.m_actions, (a.score s).isnan = false)
    (k : Nat) (happ : call.apply k s ∈ (ev.run s).calls) :
    (∃ hk : k < ev.m_actions.length, ∀ (j : Nat) (hj : j < k),
      float.gt ((ev.m_actions.get ⟨k, hk⟩).score s)
        ((ev.m_actions.get ⟨j, Nat.lt_trans hj hk⟩).score s) = true) ∧
    (∀ (i : Nat) (act : action_ptr T) (st : run_locals T), act.score s = st.best_score →
      (evaluator.run_step s i act st).best_action = st.best_action ∧
      (evaluator.run_step s i act st).best_score = st.best_score) := by
  constructor
  · obtain ⟨front, tail, hcons⟩ := List.exists_cons_of_ne_nil hne
    have hidx := (evaluator.apply_mem_calls_iff ev s front tail hcons k).mp happ
    rcases evaluator.run_loop_selects ev.m_actions s front hnan with
      ⟨h0, _, _⟩ | ⟨a, ha, _, _, hbefore⟩
    · have hk0 : k = 0 := by rw [← hidx]; exact h0
      subst hk0
      exact ⟨List.length_pos.mpr hne, fun j hj => absurd hj (Nat.not_lt_zero j)⟩
    · rw [hidx] at ha hbefore
      obtain ⟨hk, hget⟩ := List.getElem?_eq_some_iff.mp ha
      refine ⟨hk, fun j hj => ?_⟩
      have hb := hbefore j (ev.m_actions.get ⟨j, Nat.lt_trans hj hk⟩) hj
        (by simp [List.getElem?_eq_getElem (Nat.lt_trans hj hk)])
      simpa [List.get_eq_getElem, hget] using hb
  · intro i act st heq
    have hgt : float.gt (act.score s) st.best_score = false := by
      rw [heq]; exact float.gt_irrefl _
    rw [evaluator.run_step_of_not_gt s i act st hgt]
    exact ⟨rfl, rfl⟩

theorem run_first_seen_wins_witness :
    utility_spec.machine.m_actions ≠ [] ∧
    (∀ a ∈ utility_spec.machine.m_actions,
      (a.score { e := utility_spec.effect.a }).isnan = false) ∧
    call.apply 2 { e := utility_spec.effect.a } ∈
      (utility_spec.machine.run { e := utility_spec.effect.a }).calls ∧
    ((∃ hk : 2 < utility_spec.machine.m_actions.length, ∀ (j : Nat) (hj : j < 2),
      float.gt ((utility_spec.machine.m_actions.get ⟨2, hk⟩).score { e := utility_spec.effect.a })
        ((utility_spec.machine.m_actions.get ⟨j, Nat.lt_trans hj hk⟩).score
          { e := utility_spec.effect.a }) = true) ∧
    (∀ (i : Nat) (act : action_ptr utility_spec.blackboard_type)
        (st : run_locals utility_spec.blackboard_type),
      act.score { e := utility_spec.effect.a } = st.best_score →
      (evaluator.run_step { e := utility_spec.effect.a } i act st).best_action =
        st.best_action ∧
      (evaluator.run_step { e := utility_spec.effect.a } i act st).best_score =
        st.best_score)) :=
  ⟨by simp [utility_spec.machine, action_list_eq], by decide, by decide,
   run_first_seen_wins utility_spec.machine { e := utility_spec.effect.a }
     (by simp [utility_spec.machine, action_list_eq]) (by decide) 2 (by decide)⟩

/-- C13. With every comparison against NaN false: if `run` applies the
action at position `k` and that action scores NaN on the input state, then
`k = 0`; and an iteration whose action scores NaN leaves `best_action` and
`best_score` as they are. -/
theorem run_applies_nan_only_at_front {T : Type} (ev : evaluator T) (s : T) (k : Nat)
    (hk : k < ev.m_actions.length)
    (happ : call.apply k s ∈ (ev.run s).calls)
    (hscore : ((ev.m_actions.get ⟨k, hk⟩).score s).isnan = true) :
    k = 0 ∧
    (∀ (i : Nat) (act : action_ptr T) (st : run_locals T), (act.score s).isnan = true →
      (evaluator.run_step s i act st).best_action = st.best_action ∧
      (evaluator.run_step s i act st).best_score = st.best_score) := by
  constructor
  · have hne : ev.m_actions ≠ [] := by
      intro hnil
      rw [hnil] at hk
      exact absurd hk (Nat.not_lt_zero k)
    obtain ⟨front, tail, hcons⟩ := List.exists_cons_of_ne_nil hne
    have hidx := (evaluator.apply_mem_calls_iff ev s front tail hcons k).mp happ
    have hptr := evaluator.run_loop_best_action ev.m_actions s ev.m_actions 0
      (evaluator.run_init front) (by simp) (by simp [evaluator.run_init, hcons])
    rcases evaluator.run_loop_best_not_nan ev.m_actions s front with h0 | hnot
    · rw [← hidx]; exact h0
    · rw [hidx] at hptr
      obtain ⟨_, hget⟩ := List.getElem?_eq_some_iff.mp hptr
      rw [← hget] at hnot
      rw [List.get_eq_getElem] at hscore
      rw [hscore] at hnot
      cases hnot
  · intro i act st hnanact
    have hgt : float.gt (act.score s) st.best_score = false :=
      float.gt_of_isnan_left _ _ hnanact
    rw [evaluator.run_step_of_not_gt s i act st hgt]
    exact ⟨rfl, rfl⟩

theorem run_applies_nan_only_at_front_witness :
    ∃ hk : 0 < nan_front_roster.m_actions.length,
      call.apply 0 7 ∈ (nan_front_roster.run 7).calls ∧
      ((nan_front_roster.m_actions.get ⟨0, hk⟩).score 7).isnan = true ∧
      ((0 : Nat) = 0 ∧
       (∀ (i : Nat) (act : action_ptr Int) (st : run_locals Int),
          (act.score 7).isnan = true →
          (evaluator.run_step 7 i act st).best_action = st.best_action ∧
          (evaluator.run_step 7 i act st).best_score = st.best_score)) :=
  ⟨by decide, by decide, by decide,
   run_applies_nan_only_at_front nan_front_roster 7 0 (by decide) (by decide) (by decide)⟩

/-- C14. On a roster whose scores are not NaN and in which some score is
strictly greater than `numeric_limits<float>::min()`, `run` applies exactly
one action, at a position `k` such that no action of the roster scores above
the action at `k` and every action before `k` scores strictly below it: the
lowest-indexed action with the maximal score. -/
theorem run_applies_first_maximum_above_min {T : Type} (ev : evaluator T) (s : T)
    (hnan : ∀ a ∈ ev.m_actions, (a.score s).isnan = false)
    (hsome : ∃ a ∈ ev.m_actions, float.gt (a.score s) numeric_limits_float_min = true) :
    ∃ (k : Nat) (hk : k < ev.m_actions.length),
      (ev.run s).calls.filter call.is_apply = [call.apply k s] ∧
      (ev.run s).blackboard = (ev.m_actions.get ⟨k, hk⟩).apply s ∧
      (∀ (j : Nat) (hj : j < ev.m_actions.length),
        float.gt ((ev.m_actions.get ⟨j, hj⟩).score s)
          ((ev.m_actions.get ⟨k, hk⟩).score s) = false) ∧
      (∀ (j : Nat) (hj : j < k),
        float.gt ((ev.m_actions.get ⟨k, hk⟩).score s)
          ((ev.m_actions.get ⟨j, Nat.lt_trans hj hk⟩).score s) = true) := by
  obtain ⟨top, htop, htopgt⟩ := hsome
  have hne : ev.m_actions ≠ [] := List.ne_nil_of_mem htop
  obtain ⟨front, tail, hcons⟩ := List.exists_cons_of_ne_nil hne
  have hptr := evaluator.run_loop_best_action ev.m_actions s ev.m_actions 0
    (evaluator.run_init front) (by simp) (by simp [evaluator.run_init, hcons])
  rcases evaluator.run_loop_selects ev.m_actions s front hnan with
    ⟨_, _, hall⟩ | ⟨a, ha, _, hmax, hbefore⟩
  · obtain ⟨j, hj, hjget⟩ := List.getElem_of_mem htop
    have := hall j top (by rw [List.getElem?_eq_getElem hj, hjget])
    rw [htopgt] at this
    cases this
  · obtain ⟨hk, hget⟩ := List.getElem?_eq_some_iff.mp ha
    have htarget : (evaluator.run_loop s ev.m_actions 0
        (evaluator.run_init front)).best_action.target = a := by
      rw [ha] at hptr
      exact (Option.some.inj hptr).symm
    refine ⟨_, hk, evaluator.filter_apply_calls ev s front tail hcons, ?_, ?_, ?_⟩
    · rw [evaluator.run_of_cons ev s front tail hcons]
      simp only [List.get_eq_getElem, hget, htarget]
    · intro j hj
      have hb := hmax j (ev.m_actions.get ⟨j, hj⟩) (by simp [List.getElem?_eq_getElem hj])
      simpa [List.get_eq_getElem, hget] using hb
    · intro j hj
      have hb := hbefore j (ev.m_actions.get ⟨j, Nat.lt_trans hj hk⟩) hj
        (by simp [List.getElem?_eq_getElem (Nat.lt_trans hj hk)])
      simpa [List.get_eq_getElem, hget] using hb

theorem run_applies_first_maximum_above_min_witness :
    (∀ a ∈ usage_example.the_evaluator.m_actions,
      (a.score { food := 0, wood := 0, stone := 0, gold := 0 }).isnan = false) ∧
    (∃ a ∈ usage_example.the_evaluator.m_actions,
      float.gt (a.score { food := 0, wood := 0, stone := 0, gold := 0 })
        numeric_limits_float_min = true) ∧
    ∃ (k : Nat) (hk : k < usage_example.the_evaluator.m_actions.length),
      (usage_example.the_evaluator.run
          { food := 0, wood := 0, stone := 0, gold := 0 }).calls.filter call.is_apply =
        [call.apply k { food := 0, wood := 0, stone := 0, gold := 0 }] ∧
      (usage_example.the_evaluator.run
          { food := 0, wood := 0, stone := 0, gold := 0 }).blackboard =
        (usage_example.the_evaluator.m_actions.get ⟨k, hk⟩).apply
          { food := 0, wood := 0, stone := 0, gold := 0 } ∧
      (∀ (j : Nat) (hj : j < usage_example.the_evaluator.m_actions.length),
        float.gt
          ((usage_example.the_evaluator.m_actions.get ⟨j, hj⟩).score
            { food := 0, wood := 0, stone := 0, gold := 0 })
          ((usage_example.the_evaluator.m_actions.get ⟨k, hk⟩).score
            { food := 0, wood := 0, stone := 0, gold := 0 }) = false) ∧
      (∀ (j : Nat) (hj : j < k),
        float.gt
          ((usage_example.the_evaluator.m_actions.get ⟨k, hk⟩).score
            { food := 0, wood := 0, stone := 0, gold := 0 })
          ((usage_example.the_evaluator.m_actions.get ⟨j, Nat.lt_trans hj hk⟩).score
            { food := 0, wood := 0, stone := 0, gold := 0 }) = true) :=
  ⟨by decide, by decide,
   run_applies_first_maximum_above_min usage_example.the_evaluator
     { food := 0, wood := 0, stone := 0, gold := 0 } (by decide) (by decide)⟩

/-- C15. On a non-empty roster in which no score is strictly greater than
`numeric_limits<float>::min()` (every score zero, negative or NaN, for
instance), `run` applies the first action of the roster, whatever the scores
are: its one call of `apply` is on position 0 and the blackboard becomes what
the front action makes of the input. -/
theorem run_applies_front_when_none_above_min {T : Type} (ev : evaluator T) (s : T)
    (hne : ev.m_actions ≠ [])
    (hnone : ∀ a ∈ ev.m_actions, float.gt (a.score s) numeric_limits_float_min = false) :
    ∃ h0 : 0 < ev.m_actions.length,
      (ev.run s).calls.filter call.is_apply = [call.apply 0 s] ∧
      (ev.run s).blackboard = (ev.m_actions.get ⟨0, h0⟩).apply s := by
  obtain ⟨front, tail, hcons⟩ := List.exists_cons_of_ne_nil hne
  obtain ⟨_, hidx, htgt⟩ := evaluator.run_loop_keeps_front ev.m_actions s front hnone
  refine ⟨List.length_pos.mpr hne, ?_, ?_⟩
  · rw [evaluator.filter_apply_calls ev s front tail hcons, hidx]
  · have hget : ev.m_actions.get ⟨0, List.length_pos.mpr hne⟩ = front := by
      simp only [List.get_eq_getElem, hcons, List.getElem_cons_zero]
    rw [evaluator.run_of_cons ev s front tail hcons, hget]
    simp only [htgt]

theorem run_applies_front_when_none_above_min_witness :
    negative_roster.m_actions ≠ [] ∧
    (∀ a ∈ negative_roster.m_actions,
      float.gt (a.score 7) numeric_limits_float_min = false) ∧
    ∃ h0 : 0 < negative_roster.m_actions.length,
      (negative_roster.run 7).calls.filter call.is_apply = [call.apply 0 7] ∧
      (negative_roster.run 7).blackboard = (negative_roster.m_actions.get ⟨0, h0⟩).apply 7 :=
  ⟨by simp [negative_roster, action_list_eq], by decide,
   run_applies_front_when_none_above_min negative_roster 7
     (by simp [negative_roster, action_list_eq]) (by decide)⟩

end aitoolkit.utility
